import Mathlib

/-!
Verification of the netlist-construction helpers of the PyRTL repository
(`pyrtl/helperfuncs.py`): `as_wires`, `and_all_bits` / `or_all_bits` /
`xor_all_bits` / `parity`, `mux` / `_mux2`, `get_block`, `concat`,
`match_bitwidth`.

The embedding carries, for each wire, its bitwidth, its owning block (as a
numeric identifier) and its unsigned denotational value; net emission is
modelled by threading an append-only list of logic nets.  The `wire`, `core`
and `memory` modules of the repository are external collaborators: the handful
of operations the helpers use from them (slicing, zero extension, constants,
net records) are modelled from the specification and marked as such below.
-/

/-- A WireVector handle: bitwidth, unsigned denotational value, and the
numeric identifier of the owning block.  The embedding only builds wires whose
bitwidth is defined, so the bitwidth is a plain natural number. -/
structure Wire where
  bitwidth : Nat
  val : Nat
  block : Nat
deriving DecidableEq, Repr

instance : Inhabited Wire := ⟨⟨0, 0, 0⟩⟩

/-- Opcode of a logic net emitted by the helpers: `x` (select) or `c`
(concatenate). -/
inductive NetOp where
  | x
  | c
deriving DecidableEq, Repr

/-- Modelled from the spec: a netlist node (`core.LogicNet`) — opcode,
optional operation parameter, ordered argument wires and destination wires.
The helpers always pass `op_param=None`. -/
structure LogicNet where
  op : NetOp
  op_param : Option Nat
  args : List Wire
  dests : List Wire
deriving DecidableEq, Repr

/-- Errors.  The source raises a single `core.PyrtlError`; the constructors
below name its raise sites after the specification's error taxonomy
(`InvalidOperand`, `InvalidWidth`, `ConflictingContainers`, `ArityMismatch`).
`typeError`, `recursionError` and `indexError` stand for the corresponding
Python interpreter-level exceptions. -/
inductive PyError where
  | invalidOperand
  | invalidWidth
  | conflictingContainers
  | arityMismatch
  | typeError
  | recursionError
  | indexError
deriving DecidableEq, Repr

/-- A raw argument as accepted by the helpers: an integer (Python bools are
integers), an existing wire, or a memory-index marker.  A memory-index marker
carries the block of its memory and the wire produced by the memory
component's read-access synthesis, which is opaque to this core. -/
inductive PyVal where
  | int (n : Nat)
  | wv (w : Wire)
  | memIdx (mblock : Nat) (readResult : Wire)
deriving DecidableEq, Repr

/-- Modelled from the spec: `WireVector.zero_extended(bitwidth)` widens a wire
by prepending zero bits, preserving its unsigned numeric value
(`wire.py` is not part of the given source). -/
def zero_extended (w : Wire) (bitwidth : Nat) : Wire :=
  ⟨bitwidth, w.val, w.block⟩

/-- Modelled from the spec: the low-bit-range slice `w[:k]` keeps the
low-order `k` bits, index 0 being the least significant bit. -/
def sliceLow (w : Wire) (k : Nat) : Wire :=
  ⟨k, w.val % 2 ^ k, w.block⟩

/-- Modelled from the spec: `w[-1]`, the top (most significant) bit of the
selector. -/
def topBit (w : Wire) : Wire :=
  ⟨1, w.val / 2 ^ (w.bitwidth - 1) % 2, w.block⟩

/-- Modelled from the spec: `w[0:-1]`, the low `bitwidth - 1` bits of the
selector. -/
def dropMSB (w : Wire) : Wire :=
  sliceLow w (w.bitwidth - 1)

/-- Modelled from the spec: `w[0]`, the least significant bit. -/
def getBit0 (w : Wire) : Wire :=
  ⟨1, w.val % 2, w.block⟩

/-- Modelled from the spec: `w[1:]`, every bit except the least significant
one. -/
def dropLSB (w : Wire) : Wire :=
  ⟨w.bitwidth - 1, w.val / 2, w.block⟩

/-- Modelled from the spec: the minimal bitwidth representing a value (the
width `wire.Const` picks when none is requested); at least one bit. -/
def constMinWidth (n : Nat) : Nat :=
  max n.size 1

/-- Modelled from the spec: `wire.Const(val, bitwidth, block)` — a constant
wire in `block`, of the requested width when one is given and of the minimal
width representing the value otherwise. -/
def constWire (n : Nat) (bitwidth : Option Nat) (block : Nat) : Wire :=
  match bitwidth with
  | some bw => ⟨bw, n % 2 ^ bw, block⟩
  | none => ⟨constMinWidth n, n, block⟩

/-- Python truthiness of the `bitwidth` argument: `None` and `0` are falsy. -/
def pyTruthy : Option Nat → Bool
  | none => false
  | some n => decide (n ≠ 0)

/-- Source line 44 tests `bitwidth == '0'`: it compares the requested width
against the text "0".  A numeric (or absent) bitwidth argument never equals a
text value in Python, so for the integer widths this embedding passes the test
is constantly false. -/
def bitwidth_is_text_zero (bitwidth : Option Nat) : Bool :=
  false

/-- `as_wires(val, bitwidth, truncating, block)` from `helperfuncs.py` lines
24-53.  Integers become constants; memory-index markers delegate to the memory
component's read-access synthesis; wires are zero-extended, truncated, or
returned unchanged according to the requested width.  The
`val.bitwidth is None` branch is omitted: embedded wires always carry a
defined bitwidth. -/
def as_wires (val : PyVal) (bitwidth : Option Nat) (truncating : Bool) (block : Nat) :
    Except PyError Wire :=
  match val with
  | .int n => .ok (constWire n bitwidth block)
  | .memIdx _ readResult => .ok readResult
  | .wv w =>
    if bitwidth_is_text_zero bitwidth then .error .invalidWidth
    else if pyTruthy bitwidth ∧ bitwidth.getD 0 > w.bitwidth then
      .ok (zero_extended w (bitwidth.getD 0))
    else if pyTruthy bitwidth ∧ truncating = true ∧ bitwidth.getD 0 < w.bitwidth then
      .ok (sliceLow w (bitwidth.getD 0))
    else .ok w

/-- The block an argument contributes in `get_block`: memory-index markers
contribute the block of their memory, wires their own block, anything else
nothing. -/
def contributed_block : PyVal → Option Nat
  | .memIdx mblock _ => some mblock
  | .wv w => some w.block
  | .int _ => none

/-- `get_block(*arglist)` from `helperfuncs.py` lines 147-174: collect the set
of contributed blocks; more than one distinct block is an error, exactly one
is returned, none falls back to the ambient working block. -/
def get_block (working : Nat) (arglist : List PyVal) : Except PyError Nat :=
  let blocks := (arglist.filterMap contributed_block).dedup
  match blocks with
  | [] => .ok working
  | [b] => .ok b
  | _ => .error .conflictingContainers

/-- `match_bitwidth(*args)` from `helperfuncs.py` lines 201-208: compute the
maximal bitwidth and zero-extend every argument to it.  (Python's `max`
requires a non-empty argument list; the fold below agrees with it on every
non-empty list.) -/
def match_bitwidth (args : List Wire) : List Wire :=
  let max_len := (args.map (fun wv => wv.bitwidth)).foldl max 0
  args.map (fun wv => zero_extended wv max_len)

/-- The argument of the bit-reduction helpers, which Python duck-types: the
intended input is a single multi-bit wire, but a list of wires is also
accepted by `len`, indexing and slicing. -/
inductive ReduceArg where
  | wvec (w : Wire)
  | lst (ws : List Wire)
deriving DecidableEq, Repr

/-- `len(vector)`: the bitwidth of a wire, the length of a list. -/
def reduceLen : ReduceArg → Nat
  | .wvec w => w.bitwidth
  | .lst ws => ws.length

/-- `vector[1:]`: drop the least significant bit of a wire, or the first
element of a list. -/
def reduceTail : ReduceArg → ReduceArg
  | .wvec w => .wvec (dropLSB w)
  | .lst ws => .lst (ws.drop 1)

/-- `vector[0]`: the least significant bit of a wire, or the first element of
a list (`none` models Python's IndexError on an empty list). -/
def reduceHead : ReduceArg → Option Wire
  | .wvec w => some (getBit0 w)
  | .lst ws => ws.head?

/-- Modelled from the spec: the WireVector binary bitwise operators
(`__and__`, `__or__`, `__xor__` in the absent `wire.py`) take exactly one
explicit operand besides their bound receiver; Python raises TypeError when a
bound-method call supplies any other number of positional arguments.  On a
single wire operand the operator matches bitwidths and applies the bitwise
function. -/
def boundMethodCall (op : Nat → Nat → Nat) (receiver : Wire) (posArgs : List ReduceArg) :
    Except PyError ReduceArg :=
  match posArgs with
  | [.wvec other] =>
    let m := max receiver.bitwidth other.bitwidth
    .ok (.wvec ⟨m, op receiver.val other.val % 2 ^ m, receiver.block⟩)
  | _ => .error .typeError

/-- Recursion core of `_apply_op_over_all_bits` (`helperfuncs.py` lines
76-82), structurally recursive on a counter that the wrapper sets to
`len(vector)`.  Each recursive step shortens the vector by exactly one, so the
counter tracks the length exactly; the exhausted-counter branch corresponds to
Python's RecursionError on a length-0 vector, whose tail is again length 0. -/
def applyOpGo (op : Nat → Nat → Nat) : Nat → ReduceArg → Except PyError ReduceArg
  | fuel, vector =>
    if reduceLen vector = 1 then .ok vector
    else
      match fuel with
      | 0 => .error .recursionError
      | fuel' + 1 =>
        match applyOpGo op fuel' (reduceTail vector) with
        | .error e => .error e
        | .ok rest =>
          match reduceHead vector with
          | none => .error .indexError
          | some head =>
            -- source: `func = getattr(vector[0], op); return func(vector[0], rest)`
            -- the bound method of `vector[0]` is called with the two
            -- positional arguments `(vector[0], rest)`
            boundMethodCall op head [.wvec head, rest]

/-- `_apply_op_over_all_bits(op, vector)` from `helperfuncs.py` lines 76-82:
a length-1 vector is returned unchanged, otherwise the rest of the vector is
folded first and the least significant bit's bound operator method is called
with the two positional arguments `(vector[0], rest)`. -/
def apply_op_over_all_bits (op : Nat → Nat → Nat) (vector : ReduceArg) :
    Except PyError ReduceArg :=
  applyOpGo op (reduceLen vector) vector

/-- `and_all_bits(vector)` from `helperfuncs.py` lines 56-58. -/
def and_all_bits (vector : ReduceArg) : Except PyError ReduceArg :=
  apply_op_over_all_bits Nat.land vector

/-- `or_all_bits(vector)` from `helperfuncs.py` lines 61-63. -/
def or_all_bits (vector : ReduceArg) : Except PyError ReduceArg :=
  apply_op_over_all_bits Nat.lor vector

/-- `xor_all_bits(vector)` from `helperfuncs.py` lines 66-68. -/
def xor_all_bits (vector : ReduceArg) : Except PyError ReduceArg :=
  apply_op_over_all_bits Nat.xor vector

/-- `parity(vector)` from `helperfuncs.py` lines 71-73 (same as
`xor_all_bits`). -/
def parity (vector : ReduceArg) : Except PyError ReduceArg :=
  apply_op_over_all_bits Nat.xor vector

/-- `_mux2(select, falsecase, truecase)` from `helperfuncs.py` lines 126-144:
resolve the block, coerce the three arguments, require a 1-bit selector,
match the two data widths, and emit one select (`x`) net whose output carries
`falsecase` when the selector is 0 and `truecase` when it is 1 (the net's
evaluation rule lives in the external simulator and is modelled from the
spec). -/
def mux2 (working : Nat) (select falsecase truecase : PyVal) (st : List LogicNet) :
    Except PyError (Wire × List LogicNet) :=
  match get_block working [select, falsecase, truecase] with
  | .error e => .error e
  | .ok block =>
    match as_wires select none true block with
    | .error e => .error e
    | .ok s =>
      match as_wires falsecase none true block with
      | .error e => .error e
      | .ok a =>
        match as_wires truecase none true block with
        | .error e => .error e
        | .ok b =>
          if s.bitwidth ≠ 1 then .error .arityMismatch
          else
            let pair := match_bitwidth [a, b]
            let a2 := pair.getD 0 a
            let b2 := pair.getD 1 b
            let resultlen := a2.bitwidth
            let outwire : Wire := ⟨resultlen, if s.val = 0 then a2.val else b2.val, block⟩
            .ok (outwire, st ++ [⟨.x, none, [s, a2, b2], [outwire]⟩])

/-- The bitwidth `as_wires(select, bitwidth=None)` gives the selector: a wire
keeps its width, an integer becomes a minimal-width constant, a memory-index
marker gets the width of its synthesized read wire. -/
def selectWidth : PyVal → Nat
  | .int n => constMinWidth n
  | .wv w => w.bitwidth
  | .memIdx _ readResult => readResult.bitwidth

/-- Recursion core of `mux` (`helperfuncs.py` lines 85-123), structurally
recursive on a counter that the wrapper sets to the coerced selector's
bitwidth.  Each recursive call passes the selector's low `k-1` bits, so the
counter tracks the selector width exactly; the exhausted-counter branch is
unreachable from the wrapper, because a selector of width 0 fails the
input-count check (`2 ^ 0 = 1` but at least two data inputs are required by
the signature).  A call with fewer than two data inputs is Python's TypeError
for missing positional arguments. -/
def muxGo (working : Nat) : Nat → PyVal → List PyVal → List LogicNet →
    Except PyError (Wire × List LogicNet)
  | k, select, ins, st =>
    match ins with
    | i0 :: i1 :: _ =>
      match get_block working (select :: ins) with
      | .error e => .error e
      | .ok block =>
        match as_wires select none true block with
        | .error e => .error e
        | .ok sel =>
          if 2 ^ sel.bitwidth ≠ ins.length then .error .arityMismatch
          else if sel.bitwidth = 1 then mux2 working (.wv sel) i0 i1 st
          else
            match k with
            | 0 => .error .recursionError
            | k' + 1 =>
              let half := ins.length / 2
              match muxGo working k' (.wv (dropMSB sel)) (ins.take half) st with
              | .error e => .error e
              | .ok (m0, st1) =>
                match muxGo working k' (.wv (dropMSB sel)) (ins.drop half) st1 with
                | .error e => .error e
                | .ok (m1, st2) =>
                  mux2 working (.wv (topBit sel)) (.wv m0) (.wv m1) st2
    | _ => .error .typeError

/-- `mux(select, falsecase, truecase, *rest)` from `helperfuncs.py` lines
85-123: `ins` is the list `[falsecase, truecase] + rest` of data inputs. -/
def mux (working : Nat) (select : PyVal) (ins : List PyVal) (st : List LogicNet) :
    Except PyError (Wire × List LogicNet) :=
  muxGo working (selectWidth select) select ins st

/-- Coerce each concat argument through `as_wires(arg, block=block)`,
left to right. -/
def coerceAll (args : List PyVal) (block : Nat) : Except PyError (List Wire) :=
  match args with
  | [] => .ok []
  | a :: rest =>
    match as_wires a none true block with
    | .error e => .error e
    | .ok w =>
      match coerceAll rest block with
      | .error e => .error e
      | .ok ws => .ok (w :: ws)

/-- Modelled from the spec: the value carried by a concatenate (`c`) net —
the arguments' bits in the order given, most significant first (the net's
evaluation rule lives in the external simulator). -/
def concatValue (ws : List Wire) : Nat :=
  ws.foldl (fun acc w => acc * 2 ^ w.bitwidth + w.val % 2 ^ w.bitwidth) 0

/-- `concat(*args)` from `helperfuncs.py` lines 177-198: resolve the block,
require at least one argument, return a single argument coerced and without
emitting any net, and otherwise coerce all arguments and emit one
concatenate (`c`) net whose output width is the sum of the argument widths. -/
def concat (working : Nat) (args : List PyVal) (st : List LogicNet) :
    Except PyError (Wire × List LogicNet) :=
  match get_block working args with
  | .error e => .error e
  | .ok block =>
    if args.length = 0 then .error .arityMismatch
    else if args.length = 1 then
      match as_wires (args.getD 0 (.int 0)) none true block with
      | .error e => .error e
      | .ok w => .ok (w, st)
    else
      match coerceAll args block with
      | .error e => .error e
      | .ok arg_wirevectors =>
        let final_width := (arg_wirevectors.map (fun w => w.bitwidth)).sum
        let outwire : Wire := ⟨final_width, concatValue arg_wirevectors, block⟩
        .ok (outwire, st ++ [⟨.c, none, arg_wirevectors, [outwire]⟩])

/-- Shape invariant of a select net as emitted by `mux2`: exactly three
inputs — a 1-bit selector and two data operands of equal width — and one
output of that width. -/
def selectNetOK (n : LogicNet) : Prop :=
  ∃ s a b d, n = ⟨.x, none, [s, a, b], [d]⟩ ∧ s.bitwidth = 1 ∧
    a.bitwidth = b.bitwidth ∧ d.bitwidth = a.bitwidth

/-- Shape invariant of a concatenate net as emitted by `concat`: at least one
ordered input and one output whose width is the sum of the input widths. -/
def concatNetOK (n : LogicNet) : Prop :=
  ∃ args d, n = ⟨.c, none, args, [d]⟩ ∧ 1 ≤ args.length ∧
    d.bitwidth = (args.map (fun w => w.bitwidth)).sum

/-- The big-endian weighted-sum reading of a wire list: the first wire
occupies the highest-order bits, every later wire progressively lower ones. -/
def bigEndianValue : List Wire → Nat
  | [] => 0
  | w :: rest => w.val * 2 ^ ((rest.map (fun v => v.bitwidth)).sum) + bigEndianValue rest

/-! ## Helper lemmas -/

theorem as_wires_wv_none (w : Wire) (t : Bool) (block : Nat) :
    as_wires (.wv w) none t block = .ok w := rfl

theorem dedup_all_eq {b : Nat} : ∀ (l : List Nat), l ≠ [] → (∀ x ∈ l, x = b) →
    l.dedup = [b] := by
  intro l
  induction l with
  | nil => intro h; exact absurd rfl h
  | cons x xs ih =>
    intro _ hall
    have hx : x = b := hall x (List.mem_cons_self x xs)
    subst hx
    cases xs with
    | nil => simp
    | cons y ys =>
      have hy : y = x := hall y (by simp)
      have hmem : x ∈ y :: ys := by rw [hy]; exact List.mem_cons_self x ys
      rw [List.dedup_cons_of_mem hmem]
      exact ih (by simp) (fun z hz => hall z (List.mem_cons_of_mem x hz))

theorem get_block_all_eq (working b : Nat) (args : List PyVal)
    (hne : args.filterMap contributed_block ≠ [])
    (hall : ∀ x ∈ args.filterMap contributed_block, x = b) :
    get_block working args = .ok b := by
  simp only [get_block]
  rw [dedup_all_eq _ hne hall]

theorem filterMap_contributed_wv (ws : List Wire) :
    (ws.map PyVal.wv).filterMap contributed_block = ws.map (fun w => w.block) := by
  induction ws with
  | nil => rfl
  | cons w ws ih => simp [contributed_block, ih]

theorem mux2_spec (working bb W : Nat) (s a b : Wire) (st : List LogicNet)
    (hs1 : s.bitwidth = 1) (ha : a.bitwidth = W) (hb : b.bitwidth = W)
    (hsb : s.block = bb) (hab : a.block = bb) (hbb : b.block = bb) :
    mux2 working (.wv s) (.wv a) (.wv b) st =
      .ok (⟨W, if s.val = 0 then a.val else b.val, bb⟩,
        st ++ [⟨.x, none, [s, zero_extended a W, zero_extended b W],
          [⟨W, if s.val = 0 then a.val else b.val, bb⟩]⟩]) := by
  have hblk : get_block working [.wv s, .wv a, .wv b] = .ok bb := by
    apply get_block_all_eq
    · simp [contributed_block]
    · intro x hx
      simp [contributed_block, hsb, hab, hbb] at hx
      rcases hx with h | h | h <;> omega
  simp only [mux2, hblk, as_wires_wv_none]
  simp only [hs1, if_neg (by omega : ¬ (1 : Nat) ≠ 1)]
  simp [match_bitwidth, zero_extended, ha, hb, hab, hbb]

theorem getD_take_eq {α : Type} (l : List α) (n i : Nat) (d : α) (h : i < n) :
    (l.take n).getD i d = l.getD i d := by
  simp [List.getD_eq_getElem?_getD, List.getElem?_take, h]

theorem getD_drop_eq {α : Type} (l : List α) (n i : Nat) (d : α) :
    (l.drop n).getD i d = l.getD (n + i) d := by
  simp [List.getD_eq_getElem?_getD, List.getElem?_drop]

theorem muxGo_spec : ∀ (k working b W s : Nat) (ins : List Wire) (st : List LogicNet),
    1 ≤ k → s < 2 ^ k → ins.length = 2 ^ k →
    (∀ w ∈ ins, w.bitwidth = W ∧ w.val < 2 ^ W ∧ w.block = b) →
    ∃ st2, muxGo working k (.wv ⟨k, s, b⟩) (ins.map .wv) st =
      .ok (⟨W, (ins.getD s default).val, b⟩, st2) := by
  intro k
  induction k with
  | zero => intro working b W s ins st hk hs hlen hall; omega
  | succ k ih =>
    intro working b W s ins st hk hs hlen hall
    have h2 : 1 < 2 ^ (k + 1) := Nat.one_lt_two_pow (by omega)
    cases ins with
    | nil => simp at hlen; omega
    | cons w0 tl =>
      cases tl with
      | nil => simp at hlen; omega
      | cons w1 tl2 =>
        have hblk : get_block working
            (PyVal.wv ⟨k + 1, s, b⟩ :: (w0 :: w1 :: tl2).map PyVal.wv) = .ok b := by
          apply get_block_all_eq
          · simp [List.filterMap_cons, contributed_block]
          · intro x hx
            simp only [List.filterMap_cons, contributed_block,
              filterMap_contributed_wv] at hx
            rcases List.mem_cons.mp hx with h | h
            · exact h
            · obtain ⟨w, hw, rfl⟩ := List.mem_map.mp h
              exact (hall w hw).2.2
        simp only [List.map_cons] at hblk
        rw [muxGo.eq_def]
        simp only [List.map_cons]
        rw [hblk]
        dsimp only
        rw [as_wires_wv_none]
        dsimp only
        simp only [List.length_cons, List.length_map]
        have hlen2 : tl2.length + 1 + 1 = 2 ^ (k + 1) := by simpa using hlen
        rw [if_neg (show ¬(2 ^ (k + 1) ≠ tl2.length + 1 + 1) by omega)]
        cases k with
        | zero =>
          have htl : tl2 = [] := by simpa using hlen2
          subst htl
          rw [if_pos rfl]
          have hs2 : s < 2 := by simpa using hs
          obtain ⟨hw0b, hw0v, hw0blk⟩ := hall w0 (by simp)
          obtain ⟨hw1b, hw1v, hw1blk⟩ := hall w1 (by simp)
          have hval : (if s = 0 then w0.val else w1.val)
              = (([w0, w1]).getD s default).val := by
            interval_cases s
            · rfl
            · rfl
          exact ⟨_, by
            rw [mux2_spec working b W _ _ _ st rfl hw0b hw1b rfl hw0blk hw1blk, hval]⟩
        | succ k2 =>
          rw [if_neg (by omega)]
          have hp : 2 ^ (k2 + 1 + 1) = 2 * 2 ^ (k2 + 1) := by
            rw [pow_succ]; ring
          have hhalf : (tl2.length + 1 + 1) / 2 = 2 ^ (k2 + 1) := by
            rw [hlen2, hp]; omega
          rw [hhalf]
          have hdrop : dropMSB ⟨k2 + 1 + 1, s, b⟩ = (⟨k2 + 1, s % 2 ^ (k2 + 1), b⟩ : Wire) := by
            simp [dropMSB, sliceLow]
          have htop : topBit ⟨k2 + 1 + 1, s, b⟩ = (⟨1, s / 2 ^ (k2 + 1) % 2, b⟩ : Wire) := by
            simp [topBit]
          rw [hdrop, htop]
          simp only [← List.map_cons]
          rw [← List.map_take, ← List.map_drop]
          have hle : 2 ^ (k2 + 1) ≤ (w0 :: w1 :: tl2).length := by
            simp only [List.length_cons]; omega
          have hlenT : (List.take (2 ^ (k2 + 1)) (w0 :: w1 :: tl2)).length = 2 ^ (k2 + 1) := by
            rw [List.length_take]; omega
          have hlenD : (List.drop (2 ^ (k2 + 1)) (w0 :: w1 :: tl2)).length = 2 ^ (k2 + 1) := by
            rw [List.length_drop]; simp only [List.length_cons]; omega
          have hsm : s % 2 ^ (k2 + 1) < 2 ^ (k2 + 1) :=
            Nat.mod_lt _ (Nat.two_pow_pos _)
          obtain ⟨stA, hA⟩ := ih working b W (s % 2 ^ (k2 + 1))
            (List.take (2 ^ (k2 + 1)) (w0 :: w1 :: tl2)) st (by omega) hsm hlenT
            (fun w hw => hall w (List.mem_of_mem_take hw))
          rw [hA]
          dsimp only
          obtain ⟨stB, hB⟩ := ih working b W (s % 2 ^ (k2 + 1))
            (List.drop (2 ^ (k2 + 1)) (w0 :: w1 :: tl2)) stA (by omega) hsm hlenD
            (fun w hw => hall w (List.mem_of_mem_drop hw))
          rw [hB]
          dsimp only
          have hval : (if s / 2 ^ (k2 + 1) % 2 = 0
              then ((List.take (2 ^ (k2 + 1)) (w0 :: w1 :: tl2)).getD (s % 2 ^ (k2 + 1)) default).val
              else ((List.drop (2 ^ (k2 + 1)) (w0 :: w1 :: tl2)).getD (s % 2 ^ (k2 + 1)) default).val)
              = ((w0 :: w1 :: tl2).getD s default).val := by
            have hs2 : s < 2 * 2 ^ (k2 + 1) := by rw [← hp]; exact hs
            by_cases hlt : s < 2 ^ (k2 + 1)
            · rw [if_pos (by rw [Nat.div_eq_of_lt hlt])]
              rw [Nat.mod_eq_of_lt hlt, getD_take_eq _ _ _ _ hlt]
            · have hdiv : s / 2 ^ (k2 + 1) = 1 := by
                apply Nat.div_eq_of_lt_le
                · omega
                · omega
              rw [if_neg (by rw [hdiv]; omega)]
              rw [getD_drop_eq]
              congr 2
              have hmod := Nat.div_add_mod s (2 ^ (k2 + 1))
              rw [hdiv, mul_one] at hmod
              omega
          exact ⟨_, by
            rw [mux2_spec working b W _ _ _ stB rfl rfl rfl rfl rfl rfl, hval]⟩

/-! ## Claim C1: mux selects the input indexed by the selector value -/

/-- C1: for every selector of width `k ≥ 1` carrying value `s < 2^k` and every
list of `2^k` same-width well-formed inputs in the selector's block,
`mux(select, inputs)` succeeds and returns a wire of the common width whose
value is that of `inputs[s]`; the general statement covers in particular
k = 1, 2, 3. -/
theorem mux_selects_indexed_input (working b W k s : Nat) (ins : List Wire)
    (st : List LogicNet) (hk : 1 ≤ k) (hs : s < 2 ^ k) (hlen : ins.length = 2 ^ k)
    (hall : ∀ w ∈ ins, w.bitwidth = W ∧ w.val < 2 ^ W ∧ w.block = b) :
    ∃ st2, mux working (.wv ⟨k, s, b⟩) (ins.map .wv) st =
      .ok (⟨W, (ins.getD s default).val, b⟩, st2) :=
  muxGo_spec k working b W s ins st hk hs hlen hall

/-- Witness for C1 at k = 2, s = 2, four 3-bit inputs: the returned wire
carries the value of the third input. -/
theorem mux_selects_indexed_input_witness :
    ∃ st2, mux 0 (.wv ⟨2, 2, 0⟩)
        (([⟨3, 1, 0⟩, ⟨3, 3, 0⟩, ⟨3, 5, 0⟩, ⟨3, 7, 0⟩] : List Wire).map .wv) [] =
      .ok (⟨3, (([⟨3, 1, 0⟩, ⟨3, 3, 0⟩, ⟨3, 5, 0⟩, ⟨3, 7, 0⟩] : List Wire).getD 2 default).val, 0⟩, st2) :=
  mux_selects_indexed_input 0 0 3 2 2 _ [] (by decide) (by decide) (by decide) (by decide)

/-! ## Claim C6: mux input-count mismatch -/

/-- C6: whenever a mux call resolves its block and the number of data inputs
differs from two to the power of the selector width, the call fails with the
arity-mismatch error. -/
theorem mux_input_count_mismatch (working b : Nat) (sel : Wire) (ins : List PyVal)
    (st : List LogicNet) (h2 : 2 ≤ ins.length)
    (hblk : get_block working (.wv sel :: ins) = .ok b)
    (hmm : 2 ^ sel.bitwidth ≠ ins.length) :
    mux working (.wv sel) ins st = .error .arityMismatch := by
  cases ins with
  | nil => simp at h2
  | cons i0 tl =>
    cases tl with
    | nil => simp at h2
    | cons i1 tl2 =>
      show muxGo working sel.bitwidth (.wv sel) (i0 :: i1 :: tl2) st = .error .arityMismatch
      rw [muxGo.eq_def]
      dsimp only
      rw [hblk]
      dsimp only
      rw [as_wires_wv_none]
      dsimp only
      rw [if_pos hmm]

/-- Witness for C6: a 2-bit selector with only two data inputs. -/
theorem mux_input_count_mismatch_witness :
    mux 0 (.wv ⟨2, 0, 0⟩) [.wv ⟨1, 0, 0⟩, .wv ⟨1, 1, 0⟩] [] = .error .arityMismatch :=
  mux_input_count_mismatch 0 0 ⟨2, 0, 0⟩ [.wv ⟨1, 0, 0⟩, .wv ⟨1, 1, 0⟩] []
    (by decide) rfl (by decide)

/-! ## Claim C3: rejected-width behaviour of as_wires (corrected) -/

/-- Counterexample for C3 as stated: coercing a 3-bit wire with an integer
requested width of 0 returns the wire unchanged instead of failing with the
invalid-width error, and coercing it to a smaller width 2 with truncation
disabled also returns the wire unchanged instead of failing. -/
theorem as_wires_rejections_counterexample :
    as_wires (.wv ⟨3, 5, 0⟩) (some 0) true 0 = .ok ⟨3, 5, 0⟩ ∧
    as_wires (.wv ⟨3, 5, 0⟩) (some 2) false 0 = .ok ⟨3, 5, 0⟩ ∧
    (⟨3, 5, 0⟩ : Wire).bitwidth = 3 ∧ (0 : Nat) < 3 ∧ (2 : Nat) < 3 :=
  ⟨rfl, rfl, rfl, by omega, by omega⟩

/-- C3 amended: with an integer requested width of zero `as_wires` returns the
wire unchanged (the source's zero-width guard compares the width against the
text "0", which an integer never equals, and an integer 0 is falsy in the
remaining guards), and with a requested width below the current width and
`truncating=False` it likewise returns the wire unchanged at its original
width instead of failing. -/
theorem as_wires_zero_and_nontruncating_return_unchanged (w : Wire) (t : Bool)
    (block n : Nat) (hn : n < w.bitwidth) :
    as_wires (.wv w) (some 0) t block = .ok w ∧
    as_wires (.wv w) (some n) false block = .ok w := by
  constructor
  · simp [as_wires, bitwidth_is_text_zero, pyTruthy]
  · simp only [as_wires, bitwidth_is_text_zero, Bool.false_eq_true, if_false]
    rw [if_neg (by simp [pyTruthy]; omega), if_neg (by simp)]

/-- Witness for C3 amended, at a 3-bit wire and requested width 2. -/
theorem as_wires_zero_and_nontruncating_witness :
    as_wires (.wv ⟨3, 5, 0⟩) (some 0) true 0 = .ok ⟨3, 5, 0⟩ ∧
    as_wires (.wv ⟨3, 5, 0⟩) (some 2) false 0 = .ok ⟨3, 5, 0⟩ :=
  as_wires_zero_and_nontruncating_return_unchanged ⟨3, 5, 0⟩ true 0 2 (by decide)

/-! ## Claim C5: truncating coercion keeps the low-order bits -/

/-- C5: coercing a wire to a strictly smaller positive width with
`truncating=True` yields a wire of exactly the requested width whose value is
the input modulo `2^n`: bit `i < n` of the result equals bit `i` of the input
(index 0 = least significant bit) and every higher bit is zero. -/
theorem as_wires_truncating_keeps_low_bits (w : Wire) (block n : Nat)
    (h0 : 0 < n) (hn : n < w.bitwidth) :
    ∃ r, as_wires (.wv w) (some n) true block = .ok r ∧ r.bitwidth = n ∧
      r.val = w.val % 2 ^ n ∧
      (∀ i, i < n → r.val.testBit i = w.val.testBit i) ∧
      (∀ i, n ≤ i → r.val.testBit i = false) := by
  refine ⟨sliceLow w n, ?_, rfl, rfl, ?_, ?_⟩
  · simp only [as_wires, bitwidth_is_text_zero, Bool.false_eq_true, if_false,
      pyTruthy, Option.getD_some]
    rw [if_neg (by omega), if_pos ⟨by simp; omega, trivial, hn⟩]
  · intro i hi
    simp [sliceLow, Nat.testBit_mod_two_pow, hi]
  · intro i hi
    simp [sliceLow, Nat.testBit_mod_two_pow]
    omega

/-- Witness for C5 at a 3-bit wire with value 6 truncated to 2 bits. -/
theorem as_wires_truncating_witness :
    ∃ r, as_wires (.wv ⟨3, 6, 0⟩) (some 2) true 0 = .ok r ∧ r.bitwidth = 2 ∧
      r.val = 6 % 2 ^ 2 ∧
      (∀ i, i < 2 → r.val.testBit i = (6 : Nat).testBit i) ∧
      (∀ i, 2 ≤ i → r.val.testBit i = false) :=
  as_wires_truncating_keeps_low_bits ⟨3, 6, 0⟩ 0 2 (by decide) (by decide)

/-! ## Claim C2: the reduce fold crashes on every vector wider than one bit -/

theorem applyOpGo_wide (op : Nat → Nat → Nat) :
    ∀ (k : Nat) (w : Wire), w.bitwidth = k + 2 →
      applyOpGo op (k + 2) (.wvec w) = .error .typeError := by
  intro k
  induction k with
  | zero =>
    intro w hw
    rw [applyOpGo.eq_def]
    dsimp only
    simp only [reduceLen, hw]
    rw [if_neg (by omega)]
    dsimp only [reduceTail, reduceHead]
    have h1 : applyOpGo op 1 (.wvec (dropLSB w)) = .ok (.wvec (dropLSB w)) := by
      rw [applyOpGo.eq_def]
      simp [reduceLen, dropLSB, hw]
    rw [h1]
    rfl
  | succ k ih =>
    intro w hw
    rw [applyOpGo.eq_def]
    dsimp only
    simp only [reduceLen, hw]
    rw [if_neg (by omega)]
    dsimp only [reduceTail]
    rw [ih (dropLSB w) (by simp [dropLSB, hw])]

/-- C2 (code bug): on every wire vector at least two bits wide, the public
bit-reduction helpers raise Python's TypeError, because the fold calls the
bound operator method of `vector[0]` with the two positional arguments
`(vector[0], rest)` — one more than a binary operator method accepts — rather
than returning `vector[0] op reduce(op, vector[1:])` as documented. -/
theorem reduce_raises_typeerror_on_wide_vectors (w : Wire) (h : 2 ≤ w.bitwidth) :
    and_all_bits (.wvec w) = .error .typeError ∧
    or_all_bits (.wvec w) = .error .typeError ∧
    xor_all_bits (.wvec w) = .error .typeError ∧
    parity (.wvec w) = .error .typeError := by
  obtain ⟨k, hk⟩ : ∃ k, w.bitwidth = k + 2 := ⟨w.bitwidth - 2, by omega⟩
  refine ⟨?_, ?_, ?_, ?_⟩ <;>
    simp only [and_all_bits, or_all_bits, xor_all_bits, parity,
      apply_op_over_all_bits, reduceLen, hk] <;>
    exact applyOpGo_wide _ k w hk

/-- Witness for C2 at the failing input: a 2-bit vector with both bits set. -/
theorem reduce_raises_typeerror_witness :
    and_all_bits (.wvec ⟨2, 3, 0⟩) = .error .typeError ∧
    or_all_bits (.wvec ⟨2, 3, 0⟩) = .error .typeError ∧
    xor_all_bits (.wvec ⟨2, 3, 0⟩) = .error .typeError ∧
    parity (.wvec ⟨2, 3, 0⟩) = .error .typeError :=
  reduce_raises_typeerror_on_wide_vectors ⟨2, 3, 0⟩ (by decide)

/-! ## Claim C4: reduce performs no element-width validation (corrected) -/

/-- Counterexample for C4 as stated: a reduce call whose input holds a single
3-bit element returns the input unchanged instead of failing with the
invalid-operand error. -/
theorem reduce_no_width_check_counterexample :
    and_all_bits (.lst [⟨3, 5, 0⟩]) = .ok (.lst [⟨3, 5, 0⟩]) ∧
    (⟨3, 5, 0⟩ : Wire).bitwidth ≠ 1 :=
  ⟨rfl, by decide⟩

theorem boundMethodCall_ne_invalidOperand (op : Nat → Nat → Nat) (receiver : Wire)
    (posArgs : List ReduceArg) :
    boundMethodCall op receiver posArgs ≠ .error .invalidOperand := by
  unfold boundMethodCall
  split <;> simp

theorem applyOpGo_ne_invalidOperand (op : Nat → Nat → Nat) :
    ∀ (fuel : Nat) (v : ReduceArg), applyOpGo op fuel v ≠ .error .invalidOperand := by
  intro fuel
  induction fuel with
  | zero =>
    intro v
    rw [applyOpGo.eq_def]
    dsimp only
    split
    · simp
    · simp
  | succ fuel ih =>
    intro v
    rw [applyOpGo.eq_def]
    dsimp only
    split
    · simp
    · cases hrec : applyOpGo op fuel (reduceTail v) with
      | error e =>
        dsimp only
        have hne := ih (reduceTail v)
        rw [hrec] at hne
        exact hne
      | ok rest =>
        dsimp only
        cases hh : reduceHead v with
        | none => simp
        | some head => exact boundMethodCall_ne_invalidOperand op head [.wvec head, rest]

/-- C4 amended: the bit-reduction fold performs no element-width validation
and never fails with the invalid-operand error; in particular a length-1
input is returned unchanged whatever the width of its element. -/
theorem reduce_never_raises_invalid_operand (op : Nat → Nat → Nat) (v : ReduceArg) :
    apply_op_over_all_bits op v ≠ .error .invalidOperand ∧
    (reduceLen v = 1 → apply_op_over_all_bits op v = .ok v) := by
  constructor
  · exact applyOpGo_ne_invalidOperand op (reduceLen v) v
  · intro h1
    unfold apply_op_over_all_bits
    rw [applyOpGo.eq_def]
    dsimp only
    rw [if_pos h1]

/-- Witness for C4 amended: the length-1 list holding a 3-bit wire is
returned unchanged. -/
theorem reduce_never_raises_invalid_operand_witness :
    apply_op_over_all_bits Nat.land (.lst [⟨3, 5, 0⟩]) = .ok (.lst [⟨3, 5, 0⟩]) :=
  (reduce_never_raises_invalid_operand Nat.land (.lst [⟨3, 5, 0⟩])).2 (by decide)

/-! ## Claim C7: concat widths, ordering and the single-argument case -/

theorem coerceAll_map_wv (ws : List Wire) (block : Nat) :
    coerceAll (ws.map .wv) block = .ok ws := by
  induction ws with
  | nil => rfl
  | cons w ws ih =>
    simp only [List.map_cons, coerceAll, as_wires_wv_none, ih]

theorem concatValue_eq_bigEndian : ∀ (ws : List Wire) (a : Nat),
    (∀ w ∈ ws, w.val < 2 ^ w.bitwidth) →
    ws.foldl (fun acc w => acc * 2 ^ w.bitwidth + w.val % 2 ^ w.bitwidth) a
      = a * 2 ^ ((ws.map (fun w => w.bitwidth)).sum) + bigEndianValue ws := by
  intro ws
  induction ws with
  | nil => intro a _; simp [bigEndianValue]
  | cons w ws ih =>
    intro a hwf
    simp only [List.foldl_cons, bigEndianValue, List.map_cons, List.sum_cons]
    rw [ih _ (fun x hx => hwf x (List.mem_cons_of_mem w hx))]
    rw [Nat.mod_eq_of_lt (hwf w (List.mem_cons_self w ws))]
    rw [pow_add]
    ring

/-- C7: a concat of two or more wires from one block emits exactly one
concatenate net and returns a wire whose width is the sum of the argument
widths and whose value places the first argument in the highest-order bit
positions and every later argument in progressively lower ones; a
single-argument concat returns the coerced wire unchanged and emits no net. -/
theorem concat_width_and_value (working b : Nat) (ws : List Wire) (st : List LogicNet)
    (hblk : ∀ w ∈ ws, w.block = b) (hwf : ∀ w ∈ ws, w.val < 2 ^ w.bitwidth) :
    (∀ w, ws = [w] → concat working (ws.map .wv) st = .ok (w, st)) ∧
    (2 ≤ ws.length → concat working (ws.map .wv) st =
      .ok (⟨(ws.map (fun w => w.bitwidth)).sum, bigEndianValue ws, b⟩,
        st ++ [⟨.c, none, ws,
          [⟨(ws.map (fun w => w.bitwidth)).sum, bigEndianValue ws, b⟩]⟩])) := by
  constructor
  · rintro w rfl
    have hgb : get_block working ([w].map .wv) = .ok w.block := by
      simp [get_block, contributed_block]
    simp only [List.map_cons, List.map_nil] at hgb ⊢
    unfold concat
    rw [hgb]
    dsimp only
    rw [if_neg (by simp), if_pos (by simp)]
    simp [as_wires_wv_none]
  · intro hlen
    have hne : ws ≠ [] := by intro h; subst h; simp at hlen
    have hgb : get_block working (ws.map .wv) = .ok b := by
      apply get_block_all_eq
      · rw [filterMap_contributed_wv]
        simpa using hne
      · rw [filterMap_contributed_wv]
        intro x hx
        obtain ⟨w, hw, rfl⟩ := List.mem_map.mp hx
        exact hblk w hw
    unfold concat
    rw [hgb]
    dsimp only
    rw [if_neg (by rw [List.length_map]; omega), if_neg (by rw [List.length_map]; omega)]
    rw [coerceAll_map_wv]
    dsimp only
    rw [show concatValue ws = bigEndianValue ws from by
      simpa using concatValue_eq_bigEndian ws 0 hwf]

/-- Witness for C7 at a 2-bit wire followed by a 3-bit wire. -/
theorem concat_width_and_value_witness :
    concat 0 (([⟨2, 3, 0⟩, ⟨3, 5, 0⟩] : List Wire).map .wv) [] =
      .ok (⟨(([⟨2, 3, 0⟩, ⟨3, 5, 0⟩] : List Wire).map (fun w => w.bitwidth)).sum,
            bigEndianValue [⟨2, 3, 0⟩, ⟨3, 5, 0⟩], 0⟩,
        [] ++ [⟨.c, none, [⟨2, 3, 0⟩, ⟨3, 5, 0⟩],
          [⟨(([⟨2, 3, 0⟩, ⟨3, 5, 0⟩] : List Wire).map (fun w => w.bitwidth)).sum,
            bigEndianValue [⟨2, 3, 0⟩, ⟨3, 5, 0⟩], 0⟩]⟩]) :=
  (concat_width_and_value 0 0 [⟨2, 3, 0⟩, ⟨3, 5, 0⟩] [] (by decide) (by decide)).2
    (by decide)

/-! ## Claim C8: match_bitwidth zero-extends to the common maximum -/

theorem foldl_max_le_elem : ∀ (l : List Nat) (a : Nat),
    (∀ x ∈ l, x ≤ l.foldl max a) ∧ a ≤ l.foldl max a := by
  intro l
  induction l with
  | nil => intro a; exact ⟨by simp, le_refl a⟩
  | cons y ys ih =>
    intro a
    obtain ⟨h1, h2⟩ := ih (max a y)
    refine ⟨?_, ?_⟩
    · intro x hx
      rcases List.mem_cons.mp hx with rfl | hx
      · exact le_trans (le_max_right a x) h2
      · exact h1 x hx
    · exact le_trans (le_max_left a y) h2

theorem foldl_max_mem : ∀ (l : List Nat) (a : Nat),
    l.foldl max a = a ∨ l.foldl max a ∈ l := by
  intro l
  induction l with
  | nil => intro a; exact Or.inl rfl
  | cons y ys ih =>
    intro a
    rcases ih (max a y) with h | h
    · rcases max_choice a y with hm | hm
      · exact Or.inl (by rw [List.foldl_cons, h, hm])
      · exact Or.inr (by rw [List.foldl_cons, h, hm]; exact List.mem_cons_self y ys)
    · exact Or.inr (List.mem_cons_of_mem y h)

theorem getD_map_eq (f : Wire → Wire) (l : List Wire) (i : Nat) (h : i < l.length)
    (d : Wire) : (l.map f).getD i d = f (l.getD i d) := by
  have h1 : l[i]? = some (l[i]) := List.getElem?_eq_getElem h
  simp [List.getD_eq_getElem?_getD, List.getElem?_map, h1]

/-- C8: on a non-empty wire list, `match_bitwidth` returns one wire per input
in the same order, each of width equal to the maximum input width (a width
that some input attains and that no input exceeds), and each carrying its
original unsigned value. -/
theorem match_bitwidth_zero_extends (args : List Wire) (hne : args ≠ []) :
    (match_bitwidth args).length = args.length ∧
    (∀ w ∈ args, w.bitwidth ≤ (args.map (fun v => v.bitwidth)).foldl max 0) ∧
    (∃ w ∈ args, w.bitwidth = (args.map (fun v => v.bitwidth)).foldl max 0) ∧
    (∀ i, i < args.length →
      ((match_bitwidth args).getD i default).bitwidth
          = (args.map (fun v => v.bitwidth)).foldl max 0 ∧
      ((match_bitwidth args).getD i default).val = (args.getD i default).val) := by
  refine ⟨by simp [match_bitwidth], ?_, ?_, ?_⟩
  · intro w hw
    exact (foldl_max_le_elem _ 0).1 w.bitwidth (List.mem_map_of_mem _ hw)
  · rcases foldl_max_mem (args.map (fun v => v.bitwidth)) 0 with h | h
    · obtain ⟨w, hw⟩ := List.exists_mem_of_ne_nil args hne
      refine ⟨w, hw, ?_⟩
      have hle := (foldl_max_le_elem (args.map (fun v => v.bitwidth)) 0).1 w.bitwidth
        (List.mem_map_of_mem _ hw)
      omega
    · obtain ⟨w, hw, hwb⟩ := List.mem_map.mp h
      exact ⟨w, hw, hwb⟩
  · intro i hi
    constructor
    · rw [match_bitwidth, getD_map_eq _ _ _ hi]
      rfl
    · rw [match_bitwidth, getD_map_eq _ _ _ hi]
      rfl

/-- Witness for C8 at a 2-bit wire and a 4-bit wire. -/
theorem match_bitwidth_zero_extends_witness :
    (match_bitwidth [⟨2, 3, 0⟩, ⟨4, 9, 0⟩]).length = ([⟨2, 3, 0⟩, ⟨4, 9, 0⟩] : List Wire).length ∧
    (∀ w ∈ ([⟨2, 3, 0⟩, ⟨4, 9, 0⟩] : List Wire), w.bitwidth ≤
      (([⟨2, 3, 0⟩, ⟨4, 9, 0⟩] : List Wire).map (fun v => v.bitwidth)).foldl max 0) ∧
    (∃ w ∈ ([⟨2, 3, 0⟩, ⟨4, 9, 0⟩] : List Wire), w.bitwidth =
      (([⟨2, 3, 0⟩, ⟨4, 9, 0⟩] : List Wire).map (fun v => v.bitwidth)).foldl max 0) ∧
    (∀ i, i < ([⟨2, 3, 0⟩, ⟨4, 9, 0⟩] : List Wire).length →
      ((match_bitwidth [⟨2, 3, 0⟩, ⟨4, 9, 0⟩]).getD i default).bitwidth
          = (([⟨2, 3, 0⟩, ⟨4, 9, 0⟩] : List Wire).map (fun v => v.bitwidth)).foldl max 0 ∧
      ((match_bitwidth [⟨2, 3, 0⟩, ⟨4, 9, 0⟩]).getD i default).val
          = (([⟨2, 3, 0⟩, ⟨4, 9, 0⟩] : List Wire).getD i default).val) :=
  match_bitwidth_zero_extends [⟨2, 3, 0⟩, ⟨4, 9, 0⟩] (by decide)

/-! ## Claim C9: container resolution -/

/-- C9: `get_block` returns the ambient working block when no argument
contributes a block, fails with the conflicting-containers error when two
arguments contribute distinct blocks, and returns the single contributed
block when all contributing arguments agree. -/
theorem get_block_resolution (working : Nat) (args : List PyVal) :
    (args.filterMap contributed_block = [] → get_block working args = .ok working) ∧
    (∀ b1 b2, b1 ∈ args.filterMap contributed_block →
      b2 ∈ args.filterMap contributed_block → b1 ≠ b2 →
      get_block working args = .error .conflictingContainers) ∧
    (∀ b, args.filterMap contributed_block ≠ [] →
      (∀ x ∈ args.filterMap contributed_block, x = b) →
      get_block working args = .ok b) := by
  refine ⟨?_, ?_, ?_⟩
  · intro h
    simp [get_block, h]
  · intro b1 b2 hb1 hb2 hne
    rw [← List.mem_dedup] at hb1 hb2
    unfold get_block
    rcases hd : (args.filterMap contributed_block).dedup with _ | ⟨x, _ | ⟨y, ys⟩⟩
    · rw [hd] at hb1; simp at hb1
    · rw [hd] at hb1 hb2
      simp at hb1 hb2
      omega
    · rfl
  · intro b hne hall
    exact get_block_all_eq working b args hne hall

/-- Witness for C9: no contributor falls back to the working block; a wire
and a memory-index marker from different blocks conflict; two wires from one
block resolve to it. -/
theorem get_block_resolution_witness :
    get_block 7 [.int 5] = .ok 7 ∧
    get_block 7 [.wv ⟨1, 0, 3⟩, .memIdx 4 ⟨1, 0, 4⟩] = .error .conflictingContainers ∧
    get_block 7 [.wv ⟨1, 0, 3⟩, .wv ⟨2, 1, 3⟩] = .ok 3 :=
  ⟨(get_block_resolution 7 [.int 5]).1 rfl,
   (get_block_resolution 7 [.wv ⟨1, 0, 3⟩, .memIdx 4 ⟨1, 0, 4⟩]).2.1 3 4
     (by decide) (by decide) (by decide),
   (get_block_resolution 7 [.wv ⟨1, 0, 3⟩, .wv ⟨2, 1, 3⟩]).2.2 3
     (by decide) (by decide)⟩

/-! ## Claim C10: shape invariants of emitted nets -/

theorem mux2_nets (working : Nat) (select falsecase truecase : PyVal)
    (st : List LogicNet) (out : Wire) (st2 : List LogicNet)
    (h : mux2 working select falsecase truecase st = .ok (out, st2)) :
    ∃ net, st2 = st ++ [net] ∧ selectNetOK net := by
  unfold mux2 at h
  split at h
  · simp at h
  · split at h
    · simp at h
    · split at h
      · simp at h
      · split at h
        · simp at h
        · split at h
          · simp at h
          · rename_i hw1
            rw [Except.ok.injEq, Prod.mk.injEq] at h
            obtain ⟨hout, hst⟩ := h
            refine ⟨_, hst.symm, _, _, _, _, rfl, by omega, rfl, rfl⟩

theorem muxGo_nets : ∀ (k working : Nat) (select : PyVal) (ins : List PyVal)
    (st : List LogicNet) (out : Wire) (st2 : List LogicNet),
    muxGo working k select ins st = .ok (out, st2) →
    ∀ n ∈ st2, n ∈ st ∨ selectNetOK n := by
  intro k
  induction k with
  | zero =>
    intro working select ins st out st2 h n hn
    rw [muxGo.eq_def] at h
    dsimp only at h
    split at h
    · split at h
      · simp at h
      · split at h
        · simp at h
        · split at h
          · simp at h
          · split at h
            · obtain ⟨net, rfl, hnet⟩ := mux2_nets _ _ _ _ _ _ _ h
              rcases List.mem_append.mp hn with h1 | h1
              · exact Or.inl h1
              · simp only [List.mem_singleton] at h1
                subst h1
                exact Or.inr hnet
            · simp at h
    · simp at h
  | succ k ih =>
    intro working select ins st out st2 h n hn
    rw [muxGo.eq_def] at h
    dsimp only at h
    split at h
    · split at h
      · simp at h
      · split at h
        · simp at h
        · split at h
          · simp at h
          · split at h
            · obtain ⟨net, rfl, hnet⟩ := mux2_nets _ _ _ _ _ _ _ h
              rcases List.mem_append.mp hn with h1 | h1
              · exact Or.inl h1
              · simp only [List.mem_singleton] at h1
                subst h1
                exact Or.inr hnet
            · split at h
              · simp at h
              · rename_i m0st1 hrec1
                split at h
                · simp at h
                · rename_i m1st2 hrec2
                  obtain ⟨net, rfl, hnet⟩ := mux2_nets _ _ _ _ _ _ _ h
                  rcases List.mem_append.mp hn with h1 | h1
                  · rcases ih _ _ _ _ _ _ hrec2 n h1 with h2 | h2
                    · rcases ih _ _ _ _ _ _ hrec1 n h2 with h3 | h3
                      · exact Or.inl h3
                      · exact Or.inr h3
                    · exact Or.inr h2
                  · simp only [List.mem_singleton] at h1
                    subst h1
                    exact Or.inr hnet
    · simp at h

theorem coerceAll_length : ∀ (args : List PyVal) (block : Nat) (ws : List Wire),
    coerceAll args block = .ok ws → ws.length = args.length := by
  intro args
  induction args with
  | nil =>
    intro block ws h
    simp only [coerceAll, Except.ok.injEq] at h
    subst h
    rfl
  | cons a rest ih =>
    intro block ws h
    unfold coerceAll at h
    split at h
    · simp at h
    · split at h
      · simp at h
      · rename_i ws1 hrest
        rw [Except.ok.injEq] at h
        subst h
        simp [ih block ws1 hrest]

theorem concat_nets (working : Nat) (args : List PyVal) (st : List LogicNet)
    (out : Wire) (st2 : List LogicNet)
    (h : concat working args st = .ok (out, st2)) :
    ∀ n ∈ st2, n ∈ st ∨ concatNetOK n := by
  intro n hn
  unfold concat at h
  split at h
  · simp at h
  · split at h
    · simp at h
    · split at h
      · split at h
        · simp at h
        · rw [Except.ok.injEq, Prod.mk.injEq] at h
          obtain ⟨-, hst⟩ := h
          subst hst
          exact Or.inl hn
      · split at h
        · simp at h
        · rename_i hlen0 hlen1 ws hcoerce
          rw [Except.ok.injEq, Prod.mk.injEq] at h
          obtain ⟨hout, hst⟩ := h
          rw [← hst] at hn
          rcases List.mem_append.mp hn with h1 | h1
          · exact Or.inl h1
          · simp only [List.mem_singleton] at h1
            subst h1
            refine Or.inr ⟨ws, _, rfl, ?_, rfl⟩
            have hl := coerceAll_length args _ ws hcoerce
            omega

/-- C10: every select net added to the netlist by a successful `mux` call has
exactly three inputs — a 1-bit selector and two data operands of equal
width — and one output of that width, and every concatenate net added by a
successful `concat` call has at least one ordered input and one output whose
width is the sum of its input widths. -/
theorem emitted_net_invariants :
    (∀ working select ins st out st2, mux working select ins st = .ok (out, st2) →
      ∀ n ∈ st2, n ∈ st ∨ selectNetOK n) ∧
    (∀ working args st out st2, concat working args st = .ok (out, st2) →
      ∀ n ∈ st2, n ∈ st ∨ concatNetOK n) :=
  ⟨fun working select ins st out st2 h =>
      muxGo_nets (selectWidth select) working select ins st out st2 h,
   fun working args st out st2 h => concat_nets working args st out st2 h⟩

/-- Witness for C10: the single net emitted by a concrete 1-bit mux call and
the single net emitted by a concrete two-argument concat call both satisfy
the shape invariants. -/
theorem emitted_net_invariants_witness :
    (∀ n ∈ [(⟨.x, none, [⟨1, 0, 0⟩, ⟨1, 0, 0⟩, ⟨1, 1, 0⟩], [⟨1, 0, 0⟩]⟩ : LogicNet)],
      n ∈ ([] : List LogicNet) ∨ selectNetOK n) ∧
    (∀ n ∈ [(⟨.c, none, [⟨2, 3, 0⟩, ⟨3, 5, 0⟩], [⟨5, 29, 0⟩]⟩ : LogicNet)],
      n ∈ ([] : List LogicNet) ∨ concatNetOK n) :=
  ⟨emitted_net_invariants.1 0 (.wv ⟨1, 0, 0⟩) [.wv ⟨1, 0, 0⟩, .wv ⟨1, 1, 0⟩] []
      ⟨1, 0, 0⟩ _ rfl,
   emitted_net_invariants.2 0 [.wv ⟨2, 3, 0⟩, .wv ⟨3, 5, 0⟩] [] ⟨5, 29, 0⟩ _ rfl⟩
